import Mathlib

/-!
Verification of the query-routing pipeline of the notebook-router bot.

The definitions below are a shallow embedding of the Python sources:
`router.py`, `query_processor.py`, `gemini_client.py`, `bot.py`,
`memory_client.py` and `user_state.py`.  Python dictionaries are embedded
as insertion-ordered association lists (Python dicts preserve insertion
order and have unique keys), JSON values as the inductive `Json`, and
Python floats as rationals (the embedded code only compares scores and
never accumulates float error; fuzzy-match scores are kept as exact
numerator/denominator pairs compared by cross-multiplication, which is
the rational-number comparison the float division approximates).
String primitives (`lower`, `strip`, `split`, substring containment) are
re-implemented over character lists so that every definition evaluates
inside the kernel; `lower` handles the ASCII range, which covers every
string the claims quantify concretely over.
-/

/-- JSON values as produced by `json.loads`; numbers are embedded as rationals. -/
inductive Json where
  | null : Json
  | bool (b : Bool) : Json
  | num (q : ℚ) : Json
  | str (s : String) : Json
  | arr (elems : List Json) : Json
  | obj (fields : List (String × Json)) : Json

/-- Python truthiness (`bool(x)`) of a JSON-shaped value. -/
def pyTruthy : Json → Bool
  | Json.null => false
  | Json.bool b => b
  | Json.num q => !(q == 0)
  | Json.str s => !(s == "")
  | Json.arr elems => !elems.isEmpty
  | Json.obj fields => !fields.isEmpty

/-- Python `a or b`. -/
def pyOr (a b : Json) : Json :=
  if pyTruthy a then a else b

/-- Whether a JSON value is a dict (`isinstance(x, dict)`). -/
def isObj : Json → Bool
  | Json.obj _ => true
  | _ => false

/-- First-match association-list lookup: the semantics of indexing a Python dict. -/
def alookup {α : Type} (key : String) : List (String × α) → Option α
  | [] => none
  | (k, v) :: rest => if k = key then some v else alookup key rest

/-- Python `data.get(key, dflt)` on a parsed JSON object. -/
def jGet (fields : List (String × Json)) (key : String) (dflt : Json) : Json :=
  match alookup key fields with
  | some v => v
  | none => dflt

/-- ASCII lowering of one character (`str.lower` restricted to ASCII). -/
def pyLowerChar (c : Char) : Char :=
  if 'A' ≤ c && c ≤ 'Z' then Char.ofNat (c.toNat + 32) else c

/-- Python `s.lower()` (ASCII range). -/
def pyLower (s : String) : String :=
  ⟨s.data.map pyLowerChar⟩

/-- Python `s.strip()`: whitespace removed from both ends. -/
def pyStrip (s : String) : String :=
  ⟨((s.data.dropWhile Char.isWhitespace).reverse.dropWhile Char.isWhitespace).reverse⟩

/-- Whether `needle` occurs at the head of `hay` (character lists). -/
def matchesAt : List Char → List Char → Bool
  | [], _ => true
  | _ :: _, [] => false
  | a :: as, b :: bs => a == b && matchesAt as bs

/-- Python `needle in hay` on strings, as character lists. -/
def hasSub (needle : List Char) : List Char → Bool
  | [] => needle.isEmpty
  | b :: bs => matchesAt needle (b :: bs) || hasSub needle bs

/-- Splitter behind Python `s.split()`: whitespace-separated words, empties dropped. -/
def splitWs : List Char → List Char → List (List Char)
  | [], acc => if acc.isEmpty then [] else [acc.reverse]
  | c :: cs, acc =>
    if c.isWhitespace then
      if acc.isEmpty then splitWs cs [] else acc.reverse :: splitWs cs []
    else splitWs cs (c :: acc)

/-- Python `set(s.split())`: the distinct whitespace-separated words of `s`. -/
def pySetWords (s : String) : List (List Char) :=
  (splitWs s.data []).dedup

/-- A fuzzy-match score: the exact value of the float `num / den` computed by the
source (`den` is always positive there). -/
structure Score where
  num : ℕ
  den : ℕ
deriving DecidableEq, Repr

/-- Score comparison `a < b` by cross-multiplication: the exact rational-number
comparison that the source's float comparison realises. -/
def scoreLt (a b : Score) : Bool :=
  decide (a.num * b.den < b.num * a.den)

/-- A store/notebook record.  The Python sources use dicts; the fields the embedded
code reads are the display name and the opaque id (the remaining metadata fields
are abstracted into `id`, which stands for the record's identity). -/
structure StoreRec where
  id : String
  name : String
deriving DecidableEq, Repr

/-- The two score-update checks run against one candidate in the fuzzy-match loop
of `NotebookRouter.route` (router.py 161-176): substring containment either
direction scores `len(query)/max(len(candidate), 1)`, word-set overlap scores
`|common|/max(|query words|, |candidate words|)`, and each check replaces the
running best only on a strictly higher score, so ties keep the first-seen
candidate. -/
def fuzzyCand (nameLower : String) (nb : StoreRec) (acc : Option StoreRec × Score) :
    Option StoreRec × Score :=
  let nbName := pyLower nb.name
  let p1 : Option StoreRec × Score :=
    if hasSub nameLower.data nbName.data || hasSub nbName.data nameLower.data then
      let score : Score := ⟨nameLower.length, max nbName.length 1⟩
      if scoreLt acc.2 score then (some nb, score) else acc
    else acc
  let qws := pySetWords nameLower
  let cws := pySetWords nbName
  let common := qws.filter (fun w => cws.contains w)
  if common.isEmpty then p1
  else
    let score : Score := ⟨common.length, max qws.length cws.length⟩
    if scoreLt p1.2 score then (some nb, score) else p1

/-- The per-candidate fuzzy-match loop of `NotebookRouter.route` (router.py 148-176):
an exact case-insensitive match breaks out of the loop immediately; otherwise the
two scored checks of `fuzzyCand` update the running best.  Returns the best match
and its score. -/
def fuzzyFindS (nameLower : String) : List StoreRec → Option StoreRec → Score → Option StoreRec × Score
  | [], best, bestScore => (best, bestScore)
  | nb :: rest, best, bestScore =>
    if pyLower nb.name == nameLower then (some nb, bestScore)
    else
      fuzzyFindS nameLower rest (fuzzyCand nameLower nb (best, bestScore)).1
        (fuzzyCand nameLower nb (best, bestScore)).2

/-- Best fuzzy match for one LLM-returned name (`router.py` inner loop result);
`best_score` starts at `0`. -/
def fuzzyFind (nameLower : String) (notebooks : List StoreRec) : Option StoreRec :=
  (fuzzyFindS nameLower notebooks none ⟨0, 1⟩).1

/-- The name-mapping loop of `route` / `route_with_reasoning`: each selected name is
lowercased and stripped, fuzzy-matched against the catalog, and appended to the
result unless already present (`best_match not in selected`). -/
def matchNames (notebooks : List StoreRec) : List String → List StoreRec → List StoreRec
  | [], selected => selected
  | name :: rest, selected =>
    let nameLower := pyStrip (pyLower name)
    match fuzzyFind nameLower notebooks with
    | some nb =>
      if selected.contains nb then matchNames notebooks rest selected
      else matchNames notebooks rest (selected ++ [nb])
    | none => matchNames notebooks rest selected

/-- `NotebookRouter.route` (router.py 75-192).  The LLM call and response-text
parsing are external effects; `llmNames` is their outcome: `none` when no JSON
array could be extracted or any exception occurred (both paths fall back to the
first `maxNotebooks` catalog stores), `some names` when a name array was parsed. -/
def route (notebooks : List StoreRec) (llmNames : Option (List String)) (maxNotebooks : ℕ) :
    List StoreRec :=
  if notebooks.isEmpty then []
  else if notebooks.length == 1 then notebooks.take 1
  else
    match llmNames with
    | none => notebooks.take maxNotebooks
    | some selectedNames =>
      let selected := matchNames notebooks selectedNames []
      if selected.isEmpty then notebooks.take maxNotebooks
      else selected.take maxNotebooks

/-- Outcome of `route_with_reasoning`'s response handling: a parsed
`selected`/`reasoning` object, no JSON object found (which delegates to `route`
with a fresh LLM call), or an exception. -/
inductive RWResp where
  | objFound (selectedNames : List String) (reasoning : String) : RWResp
  | noObj (innerNames : Option (List String)) : RWResp
  | exc (msg : String) : RWResp

/-- `NotebookRouter.route_with_reasoning` (router.py 194-291).  Note that on the
parsed-object path the function returns `selected[:max_notebooks]` with no
fallback when the matched list is empty. -/
def routeWithReasoning (notebooks : List StoreRec) (resp : RWResp) (maxNotebooks : ℕ) :
    List StoreRec × String :=
  if notebooks.isEmpty then ([], "No notebooks available.")
  else
    match resp with
    | RWResp.objFound selectedNames reasoning =>
      ((matchNames notebooks selectedNames []).take maxNotebooks, reasoning)
    | RWResp.noObj innerNames => (route notebooks innerNames maxNotebooks, "Could not get reasoning")
    | RWResp.exc msg => (notebooks.take maxNotebooks, "Routing error: " ++ msg)

/-- Modelled from the spec: `GeminiFileSearchClient.find_store_by_name` is called
throughout `bot.py` and exercised by `tests/test_gemini_client_find_store.py`,
but its definition is not under `src/`.  Spec §4.1 gives its algorithm — exact
case-insensitive match first, then substring containment either direction scored
as `len(query)/max(len(candidate_name), 1)`, then word-set overlap, keeping the
highest non-zero score with first-seen tie-breaking, `null` when nothing scores
above zero — which is exactly the per-candidate loop the in-src router implements
(`fuzzyFindS`), applied to the client's store list with the lowercased query. -/
def findStoreByName (stores : List StoreRec) (name : String) : Option StoreRec :=
  fuzzyFind (pyLower name) stores

/-- The dataclass `ProcessedQuery` (query_processor.py 25-39).  Python is
dynamically typed and `_parse_response` stores whatever JSON value each key
held, so the fields are `Json`-valued except `original_question` (always the
incoming string) and `confidence` (coerced through `float(...)`). -/
structure ProcessedQuery where
  query_type : Json
  optimized_prompt : Json
  include_sources : Json
  target_store : Json
  target_stores : Json
  compare_topic : Json
  original_question : String
  user_intent : Json
  confidence : ℚ
  complexity : Json
  action : Json
  action_args : Json

/-- Python `float(x)` on a JSON value: numbers pass through, booleans coerce,
everything else raises.  (Numeric strings would also coerce in Python; no
claim exercises a string-typed confidence, which the prompt forbids anyway.) -/
def pyFloat : Json → Except String ℚ
  | Json.num q => Except.ok q
  | Json.bool b => Except.ok (if b then 1 else 0)
  | _ => Except.error "could not convert to float"

/-- `QueryProcessor._parse_response` (query_processor.py 194-218).  The regex
extraction of a JSON object from the raw response text and `json.loads` are
external string effects; their combined outcome is the argument: `none` when no
JSON object could be extracted or loading failed (the code raises), `some fields`
for a successfully parsed object.  Missing keys receive the `data.get` defaults;
a `confidence` value `float` rejects raises out of the parse. -/
def parseResponse (extracted : Option (List (String × Json))) (originalQuestion : String) :
    Except String ProcessedQuery :=
  match extracted with
  | none => Except.error "No JSON found in response"
  | some data =>
    match pyFloat (jGet data "confidence" (Json.num (1/2))) with
    | Except.error e => Except.error e
    | Except.ok conf =>
      Except.ok
        { query_type := jGet data "query_type" (Json.str "single")
          optimized_prompt := jGet data "optimized_prompt" (Json.str originalQuestion)
          include_sources := jGet data "include_sources" (Json.bool false)
          target_store := jGet data "target_store" Json.null
          target_stores := jGet data "compare_stores" Json.null
          compare_topic := jGet data "compare_topic" Json.null
          original_question := originalQuestion
          user_intent := jGet data "user_intent" (Json.str "")
          confidence := conf
          complexity := jGet data "complexity" (Json.str "medium")
          action := jGet data "action" Json.null
          action_args := pyOr (jGet data "action_args" Json.null) (Json.obj []) }

/-- The fixed fallback `ProcessedQuery` built by `process_query`'s exception
handler (query_processor.py 165-178). -/
def fallbackQuery (question : String) : ProcessedQuery :=
  { query_type := Json.str "single"
    optimized_prompt := Json.str question
    include_sources := Json.bool false
    target_store := Json.null
    target_stores := Json.null
    compare_topic := Json.null
    original_question := question
    user_intent := Json.str "Не удалось определить"
    confidence := 0
    complexity := Json.str "medium"
    action := Json.null
    action_args := Json.obj [] }

/-- `QueryProcessor.process_query` (query_processor.py 146-178): any exception
out of the model call or `_parse_response` is caught and replaced by the fixed
fallback result. -/
def processQuery (extracted : Option (List (String × Json))) (question : String) : ProcessedQuery :=
  match parseResponse extracted question with
  | Except.ok r => r
  | Except.error _ => fallbackQuery question

/-- Python `x == "none"` for a JSON value (non-strings never equal a string). -/
def isNoneStr : Json → Bool
  | Json.str s => s == "none"
  | _ => false

/-- `_pick_action` (bot.py 1543-1558).  The heuristic call
`infer_action_from_text(question)` is abstracted as the argument `inferRes`,
which ranges over every `(action, args)` pair the heuristic can return.  The
classifier action is used exactly when it is truthy, not `"none"`, and the
confidence clears `ACTION_CONFIDENCE_THRESHOLD`; otherwise the heuristic result
is used; non-dict args are normalised to `{}` at the end. -/
def pickAction (thresh : ℚ) (processed : Option ProcessedQuery) (inferRes : Json × Json) :
    Json × Json :=
  let a1 : Json × Json :=
    match processed with
    | some p =>
      if pyTruthy p.action && !(isNoneStr p.action) && decide (thresh ≤ p.confidence) then
        (p.action, pyOr p.action_args (Json.obj []))
      else (Json.null, Json.obj [])
    | none => (Json.null, Json.obj [])
  let a2 : Json × Json := if pyTruthy a1.1 then a1 else inferRes
  if isObj a2.2 then a2 else (a2.1, Json.obj [])

/-- One per-store result of the multistore fan-out
(`ask_multistore_parallel`, gemini_client.py 499-580). -/
structure MSResult where
  store_id : String
  store_name : String
  answer : String
  has_result : Bool
deriving DecidableEq, Repr

/-- The "not found" phrase set of `query_store` (gemini_client.py 536-539). -/
def noResultIndicators : List String :=
  ["не найден", "не содержит", "нет информации", "отсутствует", "not found", "no information"]

/-- `has_result` as computed by `query_store` on a non-empty answer:
false exactly when some indicator phrase occurs in the lowercased answer. -/
def hasResultOf (answer : String) : Bool :=
  !(noResultIndicators.any (fun ind => hasSub ind.data (pyLower answer).data))

/-- The worker `query_store` inside `ask_multistore_parallel`
(gemini_client.py 520-561).  The retrieval call is external; its answer is the
argument (`none` for a `None` return, which like an empty string is falsy and
like the exception path yields `has_result = false`). -/
def queryStoreResult (storeId storeName : String) (answer : Option String) : MSResult :=
  match answer with
  | some a =>
    if a == "" then ⟨storeId, storeName, "Ошибка запроса", false⟩
    else ⟨storeId, storeName, a, hasResultOf a⟩
  | none => ⟨storeId, storeName, "Ошибка запроса", false⟩

/-- The numbered per-store blocks of `format_multistore_response`
(gemini_client.py 599-605), starting at index `i`; long answers are truncated
to 500 characters. -/
def formatEntries : List MSResult → ℕ → List String
  | [], _ => []
  | r :: rest, i =>
    let answer := if r.answer.length > 500 then String.mk (r.answer.data.take 500) ++ "..." else r.answer
    (toString i ++ ". **" ++ r.store_name ++ "**") ::
      ("   " ++ answer ++ "\n") :: formatEntries rest (i + 1)

/-- `format_multistore_response` (gemini_client.py 582-607): entries without a
result are filtered out; when none remain the fixed "nothing found" message is
returned. -/
def formatMultistoreResponse (results : List MSResult) : String :=
  let withData := results.filter (fun r => r.has_result)
  if withData.isEmpty then "Информация не найдена ни в одном из тендеров."
  else
    String.intercalate "\n"
      (("Найдено в " ++ toString withData.length ++ " тендерах:\n") :: formatEntries withData 1)

/-- Sort key of the post-collection sort (gemini_client.py 575):
`(not has_result, store_name)` — entries with a result first. -/
def msKey (r : MSResult) : ℕ :=
  if r.has_result then 0 else 1

/-- The total preorder realised by Python's tuple comparison on
`(not x["has_result"], x["store_name"])`. -/
def msLe (a b : MSResult) : Prop :=
  msKey a < msKey b ∨ (msKey a = msKey b ∧ a.store_name ≤ b.store_name)

instance : DecidableRel msLe := fun a b => by
  unfold msLe; exact instDecidableOr

instance : IsTotal MSResult msLe :=
  ⟨fun a b => by
    unfold msLe
    rcases lt_trichotomy (msKey a) (msKey b) with h | h | h
    · exact Or.inl (Or.inl h)
    · rcases le_total a.store_name b.store_name with hs | hs
      · exact Or.inl (Or.inr ⟨h, hs⟩)
      · exact Or.inr (Or.inr ⟨h.symm, hs⟩)
    · exact Or.inr (Or.inl h)⟩

instance : IsTrans MSResult msLe :=
  ⟨fun a b c hab hbc => by
    unfold msLe at *
    rcases hab with h1 | ⟨h1, h1s⟩
    · rcases hbc with h2 | ⟨h2, _⟩
      · exact Or.inl (h1.trans h2)
      · exact Or.inl (h2 ▸ h1)
    · rcases hbc with h2 | ⟨h2, h2s⟩
      · exact Or.inl (h1 ▸ h2)
      · exact Or.inr ⟨h1.trans h2, h1s.trans h2s⟩⟩

/-- The post-collection sort `results.sort(key=lambda x: (not x["has_result"],
x["store_name"]))` (gemini_client.py 574-575): a stable sort ascending by the
key, which `List.insertionSort` with the key's total preorder realises. -/
def multistoreSort (results : List MSResult) : List MSResult :=
  List.insertionSort msLe results

/-- One stored conversation message (memory_client.py 90-94). -/
structure MsgRec where
  role : String
  content : String
  timestamp : String
deriving DecidableEq, Repr

/-- One per-(user, store) memory entry (memory_client.py 82-85). -/
structure StoreMem where
  messages : List MsgRec
  last_interaction : Option String
deriving DecidableEq, Repr

/-- The nested `self.memory` dict: user key to store id to entry, embedded as
insertion-ordered association lists. -/
abbrev Memory := List (String × List (String × StoreMem))

/-- Insertion-ordered dict write: update the existing key in place, else append
(the semantics of `d[k] = f(d.get(k))` on a Python dict). -/
def upsert {α : Type} (k : String) (f : Option α → α) : List (String × α) → List (String × α)
  | [] => [(k, f none)]
  | (k1, v) :: rest => if k1 = k then (k, f (some v)) :: rest else (k1, v) :: upsert k f rest

/-- Python `l[-k:]` for `k ≥ 0` (for `k = 0` the slice is the whole list). -/
def pyTail {α : Type} (k : ℕ) (l : List α) : List α :=
  if k = 0 then l else l.drop (l.length - k)

/-- The append-then-truncate step of `add_message` on one message list
(memory_client.py 89-98). -/
def addMessageList (maxMessages : ℕ) (msgs : List MsgRec) (m : MsgRec) : List MsgRec :=
  let appended := msgs ++ [m]
  if maxMessages < appended.length then pyTail maxMessages appended else appended

/-- `UserMemoryClient.add_message` (memory_client.py 60-103): the user and store
entries are created on demand, the message appended, the list truncated to the
last `max_messages` entries, and `last_interaction` set to the current time
(`now`, passed in since `datetime.now()` is an effect). -/
def addMessage (maxMessages : ℕ) (mem : Memory) (userKey storeId : String) (m : MsgRec)
    (now : String) : Memory :=
  upsert userKey
    (fun ud =>
      upsert storeId
        (fun sd =>
          let sd0 := sd.getD ⟨[], none⟩
          ⟨addMessageList maxMessages sd0.messages m, some now⟩)
        (ud.getD []))
    mem

/-- `UserMemoryClient.get_history` (memory_client.py 105-124). -/
def getHistory (mem : Memory) (userKey storeId : String) : List MsgRec :=
  match alookup userKey mem with
  | none => []
  | some ud =>
    match alookup storeId ud with
    | none => []
    | some sd => sd.messages

/-- Python `a < b` on strings: lexicographic comparison by code point. -/
def charListLt : List Char → List Char → Bool
  | [], [] => false
  | [], _ :: _ => true
  | _ :: _, [] => false
  | a :: as, b :: bs => a < b || (a == b && charListLt as bs)

/-- Python `a < b` on the ISO-format timestamp strings of `memory_client.py`. -/
def pyStrLt (a b : String) : Bool :=
  charListLt a.data b.data

/-- Whether `cleanup_old_entries` removes a store entry: a truthy (non-empty,
present) `last_interaction` strictly below the cutoff string
(`if last_interaction and last_interaction < cutoff_str`,
memory_client.py 197-199). -/
def staleStore (cutoff : String) (sd : StoreMem) : Bool :=
  match sd.last_interaction with
  | some li => !(li == "") && pyStrLt li cutoff
  | none => false

/-- `UserMemoryClient.cleanup_old_entries` (memory_client.py 177-214): stale
store entries are deleted from each user, then users left with no store entries
are deleted. -/
def cleanupOldEntries (cutoff : String) (mem : Memory) : Memory :=
  (mem.map (fun ue => (ue.1, ue.2.filter (fun se => !(staleStore cutoff se.2))))).filter
    (fun ue => !ue.2.isEmpty)

/-- One per-user selection record (user_state.py 38-43). -/
structure UserSel where
  selected_store_id : String
  selected_store_name : String
  updated_at : String
deriving DecidableEq, Repr

/-- `UserStateClient.get_selected_store` (user_state.py 52-54); user keys are
`str(user_id)`. -/
def getSelectedStore (state : List (String × UserSel)) (userKey : String) : Option UserSel :=
  alookup userKey state

/-- `UserStateClient.clear_store_for_all` (user_state.py 57-70): a falsy (empty)
store id is a no-op; otherwise every user whose selection points at the id is
removed. -/
def clearStoreForAll (storeId : String) (state : List (String × UserSel)) :
    List (String × UserSel) :=
  if storeId == "" then state
  else state.filter (fun e => !(e.2.selected_store_id == storeId))

/-- The store-deletion cascade of the `/delete` handler (bot.py 653-664 with
gemini_client.py 406-427): on successful backend deletion the store is dropped
from the catalog and `clear_store_for_all` is applied to the user state. -/
def deleteStoreCascade (storeId : String) (stores : List StoreRec)
    (state : List (String × UserSel)) : List StoreRec × List (String × UserSel) :=
  (stores.filter (fun s => !(s.id == storeId)), clearStoreForAll storeId state)

/-- One `add_message` call: its user key, store id, message record and the
`datetime.now()` value recorded as `last_interaction`. -/
structure AddOp where
  userKey : String
  storeId : String
  msg : MsgRec
  now : String

/-- A sequence of `add_message` calls applied to a memory state in order. -/
def runAdds (maxMessages : ℕ) (mem : Memory) (ops : List AddOp) : Memory :=
  ops.foldl (fun acc op => addMessage maxMessages acc op.userKey op.storeId op.msg op.now) mem

/-- The messages of the `add_message` calls addressed to one (user, store) pair,
in call order. -/
def relevantMsgs (ops : List AddOp) (userKey storeId : String) : List MsgRec :=
  (ops.filter (fun op => op.userKey == userKey && op.storeId == storeId)).map AddOp.msg

/-- The score comparison by cross-multiplication is exactly the comparison of
the rational numbers the source's float division computes (denominators are
always positive in the embedded code). -/
theorem scoreLt_iff_div_lt (a b : Score) (ha : 0 < a.den) (hb : 0 < b.den) :
    scoreLt a b = true ↔ (a.num : ℚ) / a.den < (b.num : ℚ) / b.den := by
  unfold scoreLt
  rw [decide_eq_true_eq, div_lt_div_iff₀ (by exact_mod_cast ha) (by exact_mod_cast hb)]
  exact_mod_cast Iff.rfl

/-- C1.  Fuzzy name matching gives substring matches priority over non-matches:
on the candidate set `[{"name": "Tender Dubrovka"}, {"name": "MyPriority"}]` the
query "Dubrovka" resolves to the "Tender Dubrovka" entry, via a substring
containment scored `len(query)/max(len(candidate_name), 1) = 8/15` (the query has
8 characters and the candidate 15), while "MyPriority" scores zero. -/
theorem fuzzy_substring_priority :
    findStoreByName [⟨"1", "Tender Dubrovka"⟩, ⟨"2", "MyPriority"⟩] "Dubrovka" =
        some ⟨"1", "Tender Dubrovka"⟩ ∧
      fuzzyFindS "dubrovka" [⟨"1", "Tender Dubrovka"⟩, ⟨"2", "MyPriority"⟩] none ⟨0, 1⟩ =
        (some ⟨"1", "Tender Dubrovka"⟩, ⟨8, 15⟩) ∧
      ("Dubrovka" : String).length = 8 ∧
      max ("tender dubrovka" : String).length 1 = 15 := by
  refine ⟨by decide, by decide, by decide, by decide⟩

/-- C2, counterexample.  The claim says a classifier response whose JSON is
present but misses fields yields the fixed fallback with confidence 0.0; the
empty JSON object `{}` instead parses with per-field defaults and confidence
0.5, so `process_query` does not return the fallback there. -/
theorem parse_missing_fields_not_fallback :
    (processQuery (some []) "q").confidence = 1 / 2 ∧
      processQuery (some []) "q" ≠ fallbackQuery "q" := by
  refine ⟨rfl, fun h => ?_⟩
  have hc : (processQuery (some []) "q").confidence = (fallbackQuery "q").confidence := by rw [h]
  rw [show (processQuery (some []) "q").confidence = 1 / 2 from rfl] at hc
  norm_num [fallbackQuery] at hc

/-- C2, amended.  For every classifier response from which no JSON object can be
extracted or whose JSON fails to load (the raise paths of `_parse_response`),
`process_query` catches the error and returns the fixed fallback `ProcessedQuery`
— query type "single", optimized prompt equal to the original question verbatim,
no action, confidence 0.0, complexity "medium" — and, being total, never
propagates an exception.  A response that parses to a JSON object with all
fields missing instead receives the per-field `data.get` defaults: same query
type, prompt, action and complexity, but confidence 0.5. -/
theorem process_query_fallback (question : String) :
    processQuery none question = fallbackQuery question ∧
      fallbackQuery question =
        { query_type := Json.str "single"
          optimized_prompt := Json.str question
          include_sources := Json.bool false
          target_store := Json.null
          target_stores := Json.null
          compare_topic := Json.null
          original_question := question
          user_intent := Json.str "Не удалось определить"
          confidence := 0
          complexity := Json.str "medium"
          action := Json.null
          action_args := Json.obj [] } ∧
      processQuery (some []) question =
        { query_type := Json.str "single"
          optimized_prompt := Json.str question
          include_sources := Json.bool false
          target_store := Json.null
          target_stores := Json.null
          compare_topic := Json.null
          original_question := question
          user_intent := Json.str ""
          confidence := 1 / 2
          complexity := Json.str "medium"
          action := Json.null
          action_args := Json.obj [] } :=
  ⟨rfl, rfl, rfl⟩

/-- C3.  Action precedence in `_pick_action`: whenever the classifier result
carries a truthy action different from "none" and its confidence clears the
threshold, that action and the classifier's argument dict are returned no matter
what `infer_action_from_text` would produce (`inferRes` ranges over every
possible heuristic result); and whenever the classifier action is absent (falsy),
"none", or the confidence is below the threshold, the heuristic result is what
is returned (its non-dict args normalised to the empty dict). -/
theorem pick_action_precedence (thresh : ℚ) (p : ProcessedQuery) (inferRes : Json × Json) :
    (pyTruthy p.action = true → isNoneStr p.action = false → thresh ≤ p.confidence →
      isObj p.action_args = true →
      pickAction thresh (some p) inferRes = (p.action, p.action_args)) ∧
    (pyTruthy p.action = false ∨ isNoneStr p.action = true ∨ p.confidence < thresh →
      pickAction thresh (some p) inferRes =
        (inferRes.1, if isObj inferRes.2 then inferRes.2 else Json.obj [])) := by
  constructor
  · intro ht hn hc hd
    have hargs : pyOr p.action_args (Json.obj []) = p.action_args := by
      unfold pyOr
      cases hpa : p.action_args with
      | obj fields =>
        cases fields with
        | nil => simp [pyTruthy]
        | cons f fs => simp [pyTruthy]
      | null => rw [hpa] at hd; exact absurd hd (by simp [isObj])
      | bool b => rw [hpa] at hd; exact absurd hd (by simp [isObj])
      | num q => rw [hpa] at hd; exact absurd hd (by simp [isObj])
      | str s => rw [hpa] at hd; exact absurd hd (by simp [isObj])
      | arr elems => rw [hpa] at hd; exact absurd hd (by simp [isObj])
    simp only [pickAction, ht, hn, decide_eq_true hc, Bool.not_false, Bool.and_self, if_true,
      hargs, hd]
  · intro h
    have hcond : (pyTruthy p.action && !(isNoneStr p.action) && decide (thresh ≤ p.confidence)) =
        false := by
      rcases h with h | h | h
      · rw [h]; simp
      · rw [h]; simp
      · rw [decide_eq_false (not_le.mpr h)]; simp
    simp only [pickAction, hcond]
    simp only [Bool.false_eq_true, if_false, pyTruthy]
    by_cases hio : isObj inferRes.2 = true <;> simp [hio]

/-- A candidate step either keeps the running best or proposes the candidate. -/
theorem fuzzyCand_fst (nl : String) (nb : StoreRec) (acc : Option StoreRec × Score) :
    (fuzzyCand nl nb acc).1 = acc.1 ∨ (fuzzyCand nl nb acc).1 = some nb := by
  simp only [fuzzyCand]
  split_ifs <;> simp

/-- The fuzzy-match loop only ever returns a candidate from the list or the
incoming running best. -/
theorem fuzzyFindS_fst_mem (nl : String) (nbs : List StoreRec) :
    ∀ (best : Option StoreRec) (bs : Score) (nb : StoreRec),
      (fuzzyFindS nl nbs best bs).1 = some nb → nb ∈ nbs ∨ best = some nb := by
  induction nbs with
  | nil =>
    intro best bs nb h
    simp only [fuzzyFindS] at h
    exact Or.inr h
  | cons head rest ih =>
    intro best bs nb h
    simp only [fuzzyFindS] at h
    by_cases hx : (pyLower head.name == nl) = true
    · rw [if_pos hx] at h
      simp only [Option.some.injEq] at h
      exact Or.inl (h ▸ List.mem_cons_self head rest)
    · rw [if_neg hx] at h
      rcases ih _ _ nb h with hmem | hbest
      · exact Or.inl (List.mem_cons_of_mem head hmem)
      · rcases fuzzyCand_fst nl head (best, bs) with h1 | h1
        · rw [h1] at hbest
          exact Or.inr hbest
        · rw [h1] at hbest
          simp only [Option.some.injEq] at hbest
          exact Or.inl (hbest ▸ List.mem_cons_self head rest)

/-- A best fuzzy match always belongs to the searched catalog. -/
theorem fuzzyFind_mem (nl : String) (nbs : List StoreRec) (nb : StoreRec)
    (h : fuzzyFind nl nbs = some nb) : nb ∈ nbs := by
  rcases fuzzyFindS_fst_mem nl nbs none ⟨0, 1⟩ nb h with hmem | hbest
  · exact hmem
  · exact absurd hbest (by simp)

/-- Every store produced by the name-mapping loop comes from the accumulator or
the catalog. -/
theorem matchNames_mem (nbs : List StoreRec) :
    ∀ (names : List String) (sel : List StoreRec) (x : StoreRec),
      x ∈ matchNames nbs names sel → x ∈ sel ∨ x ∈ nbs := by
  intro names
  induction names with
  | nil =>
    intro sel x h
    simp only [matchNames] at h
    exact Or.inl h
  | cons n rest ih =>
    intro sel x h
    cases hf : fuzzyFind (pyStrip (pyLower n)) nbs with
    | none =>
      simp only [matchNames, hf] at h
      exact ih sel x h
    | some nb =>
      simp only [matchNames, hf] at h
      by_cases hc : sel.contains nb
      · rw [if_pos hc] at h
        exact ih sel x h
      · rw [if_neg hc] at h
        rcases ih _ x h with hx | hx
        · rcases List.mem_append.mp hx with hx | hx
          · exact Or.inl hx
          · simp only [List.mem_singleton] at hx
            exact Or.inr (hx ▸ fuzzyFind_mem _ _ _ hf)
        · exact Or.inr hx

/-- The name-mapping loop never introduces a duplicate: a store is appended only
when not already selected. -/
theorem matchNames_nodup (nbs : List StoreRec) :
    ∀ (names : List String) (sel : List StoreRec), sel.Nodup → (matchNames nbs names sel).Nodup := by
  intro names
  induction names with
  | nil =>
    intro sel hsel
    simpa only [matchNames] using hsel
  | cons n rest ih =>
    intro sel hsel
    cases hf : fuzzyFind (pyStrip (pyLower n)) nbs with
    | none =>
      simp only [matchNames, hf]
      exact ih sel hsel
    | some nb =>
      simp only [matchNames, hf]
      by_cases hc : sel.contains nb
      · rw [if_pos hc]
        exact ih sel hsel
      · rw [if_neg hc]
        refine ih _ (List.nodup_append.mpr ⟨hsel, List.nodup_singleton nb, ?_⟩)
        intro a ha hb
        simp only [List.mem_singleton] at hb
        exact hc (List.elem_eq_true_of_mem (hb ▸ ha))

/-- A prefix of a duplicate-free list, the prefix drawn from a catalog: the three
result invariants `take` preserves. -/
theorem take_facts {α : Type} {l cat : List α} (hsub : ∀ x ∈ l, x ∈ cat) (hnd : l.Nodup)
    (n : ℕ) : (∀ x ∈ l.take n, x ∈ cat) ∧ (l.take n).Nodup ∧ (l.take n).length ≤ n :=
  ⟨fun x hx => hsub x (List.take_subset n l hx), (List.take_sublist n l).nodup hnd,
    List.length_take_le n l⟩

/-- C4, counterexample.  The claim asserts `route_with_reasoning` also never
returns zero stores on a non-empty catalog, but when its reply parses to an
object whose selected-names array matches nothing the function returns the
matched list truncated, with no final fallback: the result is empty. -/
theorem route_with_reasoning_empty :
    ([⟨"1", "A"⟩] : List StoreRec) ≠ [] ∧
      (routeWithReasoning [⟨"1", "A"⟩] (RWResp.objFound [] "selected nothing") 3).1 = [] := by
  refine ⟨by decide, by decide⟩

/-- C4, amended.  For every non-empty catalog and `max_results ≥ 1`, `route`
returns at least one store for every possible LLM reply (unparseable output,
empty name arrays and unmatched names all fall back to the first `max_results`
catalog stores), and `route_with_reasoning` does so on its exception path and on
its no-JSON-object path (which delegates to `route`); only its parsed-object
path can return zero stores, when the selected names match no catalog entry. -/
theorem route_nonempty (notebooks : List StoreRec) (maxNotebooks : ℕ)
    (hne : notebooks ≠ []) (hmax : 1 ≤ maxNotebooks) :
    (∀ llmNames, route notebooks llmNames maxNotebooks ≠ []) ∧
      (∀ msg, (routeWithReasoning notebooks (RWResp.exc msg) maxNotebooks).1 ≠ []) ∧
      (∀ inner, (routeWithReasoning notebooks (RWResp.noObj inner) maxNotebooks).1 ≠ []) := by
  have hempty : notebooks.isEmpty = false := by
    cases notebooks with
    | nil => exact absurd rfl hne
    | cons a l => rfl
  have htake : notebooks.take maxNotebooks ≠ [] := by
    rw [Ne, List.take_eq_nil_iff]
    push_neg
    exact ⟨by omega, hne⟩
  have hroute : ∀ llmNames, route notebooks llmNames maxNotebooks ≠ [] := by
    intro llmNames
    unfold route
    rw [hempty]
    simp only [Bool.false_eq_true, if_false]
    by_cases hlen : (notebooks.length == 1) = true
    · rw [if_pos hlen]
      rw [Ne, List.take_eq_nil_iff]
      push_neg
      exact ⟨by omega, hne⟩
    · rw [if_neg hlen]
      cases llmNames with
      | none => exact htake
      | some selectedNames =>
        by_cases hsel : (matchNames notebooks selectedNames []).isEmpty
        · simp only [hsel, if_true]
          exact htake
        · simp only [hsel, Bool.false_eq_true, if_false]
          rw [Ne, List.take_eq_nil_iff]
          push_neg
          refine ⟨by omega, ?_⟩
          intro hnil
          rw [hnil] at hsel
          exact hsel rfl
  refine ⟨hroute, ?_, ?_⟩
  · intro msg
    unfold routeWithReasoning
    rw [hempty]
    simp only [Bool.false_eq_true, if_false]
    exact htake
  · intro inner
    unfold routeWithReasoning
    rw [hempty]
    simp only [Bool.false_eq_true, if_false]
    exact hroute inner

/-- C4, witness. -/
theorem route_nonempty_witness :
    route [⟨"1", "A"⟩, ⟨"2", "B"⟩] (some ["zzz"]) 3 ≠ [] :=
  (route_nonempty [⟨"1", "A"⟩, ⟨"2", "B"⟩] 3 (by decide) (by decide)).1 (some ["zzz"])

/-- C10, counterexample.  The claim quantifies over every catalog, but when the
catalog itself contains duplicate entries the first-N fallback returns them
verbatim, so the result can contain a store twice. -/
theorem route_duplicate_catalog :
    route [⟨"1", "A"⟩, ⟨"1", "A"⟩] (some []) 3 = [⟨"1", "A"⟩, ⟨"1", "A"⟩] ∧
      ¬ (route [⟨"1", "A"⟩, ⟨"1", "A"⟩] (some []) 3).Nodup := by
  refine ⟨by decide, by decide⟩

/-- C10, amended.  For every duplicate-free catalog, every list of LLM-selected
names (repeated and paraphrased names included), every reply shape and every
`max_notebooks ≥ 1` (default 3), the store lists returned by `route` and
`route_with_reasoning` contain only catalog entries, contain no store more than
once, and have length at most `max_notebooks`. -/
theorem route_results_within_catalog (notebooks : List StoreRec)
    (llmNames : Option (List String)) (resp : RWResp) (maxNotebooks : ℕ)
    (hnd : notebooks.Nodup) (hmax : 1 ≤ maxNotebooks) :
    ((∀ x ∈ route notebooks llmNames maxNotebooks, x ∈ notebooks) ∧
        (route notebooks llmNames maxNotebooks).Nodup ∧
        (route notebooks llmNames maxNotebooks).length ≤ maxNotebooks) ∧
      (∀ x ∈ (routeWithReasoning notebooks resp maxNotebooks).1, x ∈ notebooks) ∧
        (routeWithReasoning notebooks resp maxNotebooks).1.Nodup ∧
        (routeWithReasoning notebooks resp maxNotebooks).1.length ≤ maxNotebooks := by
  have hmatch : ∀ names, (∀ x ∈ matchNames notebooks names [], x ∈ notebooks) ∧
      (matchNames notebooks names []).Nodup := by
    intro names
    refine ⟨fun x hx => ?_, matchNames_nodup notebooks names [] List.nodup_nil⟩
    rcases matchNames_mem notebooks names [] x hx with hx | hx
    · exact absurd hx (List.not_mem_nil x)
    · exact hx
  have hroute : ∀ ln, (∀ x ∈ route notebooks ln maxNotebooks, x ∈ notebooks) ∧
      (route notebooks ln maxNotebooks).Nodup ∧
      (route notebooks ln maxNotebooks).length ≤ maxNotebooks := by
    intro ln
    unfold route
    by_cases hempty : notebooks.isEmpty = true
    · simp only [hempty, if_true]
      exact ⟨fun x hx => absurd hx (List.not_mem_nil x), List.nodup_nil, by simp⟩
    · simp only [hempty, Bool.false_eq_true, if_false]
      by_cases hlen : (notebooks.length == 1) = true
      · simp only [hlen, if_true]
        have hf := take_facts (fun x hx => hx) hnd 1
        exact ⟨hf.1, hf.2.1, le_trans hf.2.2 hmax⟩
      · simp only [hlen, Bool.false_eq_true, if_false]
        cases ln with
        | none => exact take_facts (fun x hx => hx) hnd maxNotebooks
        | some selectedNames =>
          by_cases hsel : (matchNames notebooks selectedNames []).isEmpty = true
          · simp only [hsel, if_true]
            exact take_facts (fun x hx => hx) hnd maxNotebooks
          · simp only [hsel, Bool.false_eq_true, if_false]
            exact take_facts (hmatch selectedNames).1 (hmatch selectedNames).2 maxNotebooks
  refine ⟨hroute llmNames, ?_⟩
  unfold routeWithReasoning
  by_cases hempty : notebooks.isEmpty = true
  · simp only [hempty, if_true]
    exact ⟨fun x hx => absurd hx (List.not_mem_nil x), List.nodup_nil, by simp⟩
  · simp only [hempty, Bool.false_eq_true, if_false]
    cases resp with
    | objFound selectedNames reasoning =>
      exact take_facts (hmatch selectedNames).1 (hmatch selectedNames).2 maxNotebooks
    | noObj innerNames => exact hroute innerNames
    | exc msg => exact take_facts (fun x hx => hx) hnd maxNotebooks

/-- C10, witness. -/
theorem route_results_within_catalog_witness :
    (route [⟨"1", "A"⟩, ⟨"2", "B"⟩] (some ["b", "b"]) 2).Nodup :=
  ((route_results_within_catalog [⟨"1", "A"⟩, ⟨"2", "B"⟩] (some ["b", "b"]) (RWResp.exc "e") 2
    (by decide) (by decide)).1).2.1

/-- C5.  Multistore suppression: a worker answer in which one of the "not found"
indicator phrases occurs gets `has_result = false`; formatting results that all
have `has_result = false` produces the fixed "nothing found in any store"
message, which is not the empty string; and formatting only ever uses the
entries that have a result — stores without one are omitted (formatting the
results equals formatting their `has_result` filtrate). -/
theorem multistore_suppression :
    (∀ storeId storeName answer,
        noResultIndicators.any (fun ind => hasSub ind.data (pyLower answer).data) = true →
        (queryStoreResult storeId storeName (some answer)).has_result = false) ∧
      (∀ results : List MSResult, (∀ r ∈ results, r.has_result = false) →
        formatMultistoreResponse results = "Информация не найдена ни в одном из тендеров." ∧
          formatMultistoreResponse results ≠ "") ∧
      (∀ results : List MSResult,
        formatMultistoreResponse results =
          formatMultistoreResponse (results.filter (fun r => r.has_result))) := by
  refine ⟨?_, ?_, ?_⟩
  · intro storeId storeName answer hmatch
    simp only [queryStoreResult]
    by_cases he : (answer == "") = true
    · rw [if_pos he]
    · rw [if_neg he]
      simp only [hasResultOf, hmatch, Bool.not_true]
  · intro results hall
    have hnil : results.filter (fun r => r.has_result) = [] := by
      rw [List.filter_eq_nil_iff]
      intro r hr
      simp [hall r hr]
    constructor
    · unfold formatMultistoreResponse
      rw [hnil]
      rfl
    · unfold formatMultistoreResponse
      rw [hnil]
      simp
  · intro results
    unfold formatMultistoreResponse
    rw [List.filter_filter]
    simp

/-- C5, witness. -/
theorem multistore_suppression_witness :
    (queryStoreResult "s1" "A" (some "Здесь не найдено")).has_result = false ∧
      formatMultistoreResponse [queryStoreResult "s1" "A" (some "Здесь не найдено")] =
        "Информация не найдена ни в одном из тендеров." :=
  ⟨multistore_suppression.1 "s1" "A" "Здесь не найдено" (by decide),
    (multistore_suppression.2.1 [queryStoreResult "s1" "A" (some "Здесь не найдено")]
      (by decide)).1⟩

/-- The sort relation implies the two presentation guarantees of one adjacent
pair: no entry without a result precedes one with a result, and entries of equal
`has_result` are in ascending name order. -/
theorem msLe_imp {a b : MSResult} (h : msLe a b) :
    (b.has_result = true → a.has_result = true) ∧
      (a.has_result = b.has_result → a.store_name ≤ b.store_name) := by
  constructor
  · intro hb
    by_contra ha
    have ha2 : a.has_result = false := by
      cases hr : a.has_result with
      | true => exact absurd hr ha
      | false => rfl
    rcases h with h | ⟨h, _⟩
    · simp [msKey, ha2, hb] at h
    · simp [msKey, ha2, hb] at h
  · intro hab
    rcases h with h | ⟨_, hs⟩
    · simp [msKey, hab] at h
    · exact hs

/-- C6.  The post-collection sort of the multistore results is a permutation of
the collected results in which every entry with a positive answer precedes every
entry without one, and entries with equal `has_result` appear in ascending
store-name order — for every input, hence independent of completion order. -/
theorem multistore_ordering (results : List MSResult) :
    (multistoreSort results).Perm results ∧
      (multistoreSort results).Pairwise (fun a b =>
        (b.has_result = true → a.has_result = true) ∧
          (a.has_result = b.has_result → a.store_name ≤ b.store_name)) := by
  constructor
  · exact List.perm_insertionSort msLe results
  · exact List.Pairwise.imp msLe_imp (List.sorted_insertionSort msLe results)

/-- C3, witness. -/
theorem pick_action_precedence_witness :
    pickAction (3/5)
        (some { query_type := Json.str "single", optimized_prompt := Json.str "q",
                include_sources := Json.bool false, target_store := Json.null,
                target_stores := Json.null, compare_topic := Json.null,
                original_question := "q", user_intent := Json.str "",
                confidence := 9/10, complexity := Json.str "simple",
                action := Json.str "export",
                action_args := Json.obj [("format", Json.str "pdf")] })
        (Json.str "status", Json.obj []) =
      (Json.str "export", Json.obj [("format", Json.str "pdf")]) :=
  (pick_action_precedence (3/5) _ (Json.str "status", Json.obj [])).1
    (by decide) (by decide) (by norm_num) (by decide)

/-- Looking a key up after filtering cannot resurrect it. -/
theorem alookup_filter_none {α : Type} (u : String) (p : String × α → Bool)
    (l : List (String × α)) (h : alookup u l = none) : alookup u (l.filter p) = none := by
  induction l with
  | nil => rfl
  | cons kv rest ih =>
    obtain ⟨k, v⟩ := kv
    simp only [alookup] at h
    by_cases hk : k = u
    · rw [if_pos hk] at h
      exact absurd h (by simp)
    · rw [if_neg hk] at h
      rw [List.filter_cons]
      by_cases hp : p (k, v) = true
      · rw [if_pos hp]
        simp only [alookup, if_neg hk]
        exact ih h
      · rw [if_neg hp]
        exact ih h

/-- A key absent from an association list looks up to `none`. -/
theorem alookup_eq_none {α : Type} (u : String) (l : List (String × α))
    (h : u ∉ l.map Prod.fst) : alookup u l = none := by
  induction l with
  | nil => rfl
  | cons kv rest ih =>
    obtain ⟨k, v⟩ := kv
    simp only [List.map_cons, List.mem_cons] at h
    push_neg at h
    have hk : ¬(k = u) := fun hk => h.1 hk.symm
    simp only [alookup, if_neg hk]
    exact ih h.2

/-- Lookup through a filter on a dict (association list with distinct keys):
the entry survives exactly when the predicate keeps it. -/
theorem alookup_filter {α : Type} (u : String) (p : String × α → Bool)
    (l : List (String × α)) (hnd : (l.map Prod.fst).Nodup) :
    alookup u (l.filter p) =
      match alookup u l with
      | some v => if p (u, v) then some v else none
      | none => none := by
  induction l with
  | nil => rfl
  | cons kv rest ih =>
    obtain ⟨k, v⟩ := kv
    simp only [List.map_cons, List.nodup_cons] at hnd
    rw [List.filter_cons]
    by_cases hk : k = u
    · subst hk
      simp only [alookup, if_pos rfl]
      by_cases hp : p (k, v) = true
      · rw [if_pos hp]
        simp only [alookup, if_pos rfl, hp, if_true]
      · rw [if_neg hp]
        have hnone : alookup k rest = none := alookup_eq_none k rest hnd.1
        rw [alookup_filter_none k p rest hnone]
        simp [hp]
    · by_cases hp : p (k, v) = true
      · rw [if_pos hp]
        simp only [alookup, if_neg hk]
        exact ih hnd.2
      · rw [if_neg hp]
        simp only [alookup, if_neg hk]
        exact ih hnd.2

/-- C7.  Store deletion cascades to user selections: after the `/delete` handler
removes store `S` (its id is never the empty string, which `clear_store_for_all`
treats as a no-op), every user whose persisted selection pointed at `S`'s id now
gets `none` from `get_selected_store`, every user whose selection pointed at a
different store id keeps it unchanged, and `S` is gone from the catalog. -/
theorem delete_store_cascades (sid : String) (stores : List StoreRec)
    (state : List (String × UserSel)) (uid : String)
    (hnd : (state.map Prod.fst).Nodup) (hs : sid ≠ "") :
    (∀ d, getSelectedStore state uid = some d → d.selected_store_id = sid →
        getSelectedStore (deleteStoreCascade sid stores state).2 uid = none) ∧
      (∀ d, getSelectedStore state uid = some d → d.selected_store_id ≠ sid →
        getSelectedStore (deleteStoreCascade sid stores state).2 uid = some d) ∧
      (∀ s ∈ (deleteStoreCascade sid stores state).1, s.id ≠ sid) := by
  have hsid : (sid == "") = false := by
    cases hq : (sid == "") with
    | false => rfl
    | true => exact absurd (by simpa using hq) hs
  have hstate : (deleteStoreCascade sid stores state).2 =
      state.filter (fun e => !(e.2.selected_store_id == sid)) := by
    simp only [deleteStoreCascade, clearStoreForAll, hsid]
    rfl
  refine ⟨?_, ?_, ?_⟩
  · intro d hget hd
    simp only [getSelectedStore] at hget
    simp only [getSelectedStore, hstate,
      alookup_filter uid (fun e => !(e.2.selected_store_id == sid)) state hnd, hget]
    simp [hd]
  · intro d hget hd
    simp only [getSelectedStore] at hget
    simp only [getSelectedStore, hstate,
      alookup_filter uid (fun e => !(e.2.selected_store_id == sid)) state hnd, hget]
    simp [hd]
  · intro s hmem
    simp only [deleteStoreCascade, List.mem_filter] at hmem
    simpa using hmem.2

/-- C7, witness. -/
theorem delete_store_cascades_witness :
    getSelectedStore
        (deleteStoreCascade "s1" [⟨"s1", "S"⟩] [("7", ⟨"s1", "S", "t"⟩), ("8", ⟨"s2", "T", "t"⟩)]).2
        "7" = none ∧
      getSelectedStore
        (deleteStoreCascade "s1" [⟨"s1", "S"⟩] [("7", ⟨"s1", "S", "t"⟩), ("8", ⟨"s2", "T", "t"⟩)]).2
        "8" = some ⟨"s2", "T", "t"⟩ :=
  ⟨(delete_store_cascades "s1" [⟨"s1", "S"⟩] [("7", ⟨"s1", "S", "t"⟩), ("8", ⟨"s2", "T", "t"⟩)]
      "7" (by decide) (by decide)).1 ⟨"s1", "S", "t"⟩ rfl rfl,
    (delete_store_cascades "s1" [⟨"s1", "S"⟩] [("7", ⟨"s1", "S", "t"⟩), ("8", ⟨"s2", "T", "t"⟩)]
      "8" (by decide) (by decide)).2.1 ⟨"s2", "T", "t"⟩ rfl (by decide)⟩

/-- Updating a dict key and reading it back yields the written value. -/
theorem alookup_upsert_self {α : Type} (k : String) (f : Option α → α)
    (l : List (String × α)) : alookup k (upsert k f l) = some (f (alookup k l)) := by
  induction l with
  | nil => simp [upsert, alookup]
  | cons kv rest ih =>
    obtain ⟨k1, v⟩ := kv
    by_cases hk : k1 = k
    · subst hk
      simp [upsert, alookup]
    · simp only [upsert, if_neg hk, alookup, if_neg hk]
      exact ih

/-- Updating one dict key leaves every other key's lookup unchanged. -/
theorem alookup_upsert_ne {α : Type} (k u : String) (hk : k ≠ u) (f : Option α → α)
    (l : List (String × α)) : alookup u (upsert k f l) = alookup u l := by
  induction l with
  | nil => simp [upsert, alookup, if_neg hk]
  | cons kv rest ih =>
    obtain ⟨k1, v⟩ := kv
    by_cases h1 : k1 = k
    · subst h1
      simp only [upsert, if_pos rfl, alookup, if_neg hk]
    · simp only [upsert, if_neg h1, alookup]
      by_cases h2 : k1 = u
      · simp [if_pos h2]
      · simp only [if_neg h2]
        exact ih

/-- `add_message` updates the addressed (user, store) history by
append-then-truncate. -/
theorem getHistory_addMessage_same (maxMessages : ℕ) (mem : Memory) (u s : String)
    (m : MsgRec) (now : String) :
    getHistory (addMessage maxMessages mem u s m now) u s =
      addMessageList maxMessages (getHistory mem u s) m := by
  unfold getHistory addMessage
  rw [alookup_upsert_self]
  cases hu : alookup u mem with
  | none =>
    simp only [Option.getD_none, Option.getD_some]
    rw [alookup_upsert_self]
    simp [alookup]
  | some ud =>
    simp only [Option.getD_some]
    rw [alookup_upsert_self]
    cases hs : alookup s ud with
    | none => simp
    | some sd => simp

/-- `add_message` leaves every other (user, store) history unchanged. -/
theorem getHistory_addMessage_other (maxMessages : ℕ) (mem : Memory) (u1 s1 u s : String)
    (m : MsgRec) (now : String) (h : ¬(u1 = u ∧ s1 = s)) :
    getHistory (addMessage maxMessages mem u1 s1 m now) u s = getHistory mem u s := by
  unfold getHistory addMessage
  by_cases hu : u1 = u
  · subst hu
    have hs : s1 ≠ s := fun hs => h ⟨rfl, hs⟩
    rw [alookup_upsert_self]
    cases hul : alookup u1 mem with
    | none =>
      simp only [Option.getD_none, Option.getD_some]
      rw [alookup_upsert_ne s1 s hs]
      simp [alookup]
    | some ud =>
      simp only [Option.getD_some]
      rw [alookup_upsert_ne s1 s hs]
  · rw [alookup_upsert_ne u1 u hu]

/-- Running a sequence of `add_message` calls acts on one (user, store) history
as the fold of the list-level step over the calls addressed to that pair. -/
theorem getHistory_runAdds (maxMessages : ℕ) (u s : String) :
    ∀ (ops : List AddOp) (mem : Memory),
      getHistory (runAdds maxMessages mem ops) u s =
        List.foldl (addMessageList maxMessages) (getHistory mem u s)
          (relevantMsgs ops u s) := by
  intro ops
  induction ops with
  | nil => intro mem; simp [runAdds, relevantMsgs]
  | cons op rest ih =>
    intro mem
    have hstep : runAdds maxMessages mem (op :: rest) =
        runAdds maxMessages (addMessage maxMessages mem op.userKey op.storeId op.msg op.now)
          rest := by
      simp [runAdds]
    rw [hstep, ih]
    by_cases hmatch : (op.userKey == u && op.storeId == s) = true
    · have hu : op.userKey = u := eq_of_beq ((Bool.and_eq_true _ _).mp hmatch).1
      have hs : op.storeId = s := eq_of_beq ((Bool.and_eq_true _ _).mp hmatch).2
      have hrel : relevantMsgs (op :: rest) u s = op.msg :: relevantMsgs rest u s := by
        simp [relevantMsgs, List.filter_cons, hmatch]
      rw [hrel]
      simp only [List.foldl_cons]
      subst hu
      subst hs
      rw [getHistory_addMessage_same]
    · have hrel : relevantMsgs (op :: rest) u s = relevantMsgs rest u s := by
        simp [relevantMsgs, List.filter_cons, hmatch]
      rw [hrel]
      have hne : ¬(op.userKey = u ∧ op.storeId = s) := by
        intro ⟨hu, hs⟩
        exact hmatch (by simp [hu, hs])
      rw [getHistory_addMessage_other maxMessages mem op.userKey op.storeId u s op.msg op.now hne]

/-- Folding the append-then-truncate step from the empty history keeps exactly
the last `maxMessages` messages, in order. -/
theorem foldl_addMessageList (maxMessages : ℕ) (hmax : 0 < maxMessages) :
    ∀ ms : List MsgRec,
      List.foldl (addMessageList maxMessages) [] ms = ms.drop (ms.length - maxMessages) := by
  intro ms
  induction ms using List.reverseRecOn with
  | nil => simp
  | append_singleton ms m ih =>
    rw [List.foldl_append, ih]
    simp only [List.foldl_cons, List.foldl_nil]
    unfold addMessageList pyTail
    by_cases hlt : ms.length < maxMessages
    · have h1 : ms.length - maxMessages = 0 := by omega
      have h2 : (ms.length + 1) - maxMessages = 0 := by omega
      rw [h1]
      simp only [List.drop_zero]
      rw [if_neg (by simp; omega)]
      rw [List.length_append, List.length_singleton, h2]
      simp
    · have hml : maxMessages ≤ ms.length := by omega
      have hdlen : (ms.drop (ms.length - maxMessages)).length = maxMessages := by
        rw [List.length_drop]
        omega
      rw [if_pos (by rw [List.length_append, hdlen, List.length_singleton]; omega)]
      rw [if_neg (by omega)]
      rw [List.length_append, hdlen, List.length_singleton]
      have harith : maxMessages + 1 - maxMessages = 1 := by omega
      rw [harith]
      rw [List.drop_append_of_le_length (by rw [hdlen]; omega)]
      rw [List.drop_drop]
      rw [List.length_append, List.length_singleton]
      rw [List.drop_append_of_le_length (by omega)]
      have harith2 : ms.length - maxMessages + 1 = ms.length + 1 - maxMessages := by omega
      rw [harith2]

/-- C8.  Conversation memory is FIFO-bounded: starting from an empty memory,
after any interleaved sequence of `add_message` calls and for every (user,
store) pair, the stored history is exactly the most recent `max_messages`
messages addressed to that pair, in insertion order (older ones evicted first),
so its length never exceeds `max_messages` (assumed positive; the default is 5). -/
theorem memory_fifo_bounded (maxMessages : ℕ) (hmax : 0 < maxMessages) (u s : String)
    (ops : List AddOp) :
    getHistory (runAdds maxMessages [] ops) u s =
        (relevantMsgs ops u s).drop ((relevantMsgs ops u s).length - maxMessages) ∧
      (getHistory (runAdds maxMessages [] ops) u s).length ≤ maxMessages := by
  have hmain : getHistory (runAdds maxMessages [] ops) u s =
      (relevantMsgs ops u s).drop ((relevantMsgs ops u s).length - maxMessages) := by
    rw [getHistory_runAdds maxMessages u s ops []]
    have hempty : getHistory [] u s = [] := rfl
    rw [hempty]
    exact foldl_addMessageList maxMessages hmax (relevantMsgs ops u s)
  refine ⟨hmain, ?_⟩
  rw [hmain, List.length_drop]
  omega

/-- C8, witness: capacity 2, three messages to the same pair — the first is
evicted, the last two are kept in order. -/
theorem memory_fifo_bounded_witness :
    getHistory
        (runAdds 2 []
          [⟨"7", "g", ⟨"user", "a", "t1"⟩, "t1"⟩, ⟨"7", "g", ⟨"user", "b", "t2"⟩, "t2"⟩,
            ⟨"7", "g", ⟨"user", "c", "t3"⟩, "t3"⟩])
        "7" "g" =
      [⟨"user", "b", "t2"⟩, ⟨"user", "c", "t3"⟩] :=
  ((memory_fifo_bounded 2 (by decide) "7" "g"
      [⟨"7", "g", ⟨"user", "a", "t1"⟩, "t1"⟩, ⟨"7", "g", ⟨"user", "b", "t2"⟩, "t2"⟩,
        ⟨"7", "g", ⟨"user", "c", "t3"⟩, "t3"⟩]).1).trans (by decide)

/-- C9.  The conversation-memory expiry sweep is idempotent for a fixed cutoff —
applying `cleanup_old_entries` twice yields the same state as applying it once —
and every (user, store) entry whose `last_interaction` is at or after the cutoff
(not strictly below it in the string order the code compares with) survives the
sweep unchanged, inside a surviving user record. -/
theorem cleanup_idempotent :
    (∀ (cutoff : String) (mem : Memory),
        cleanupOldEntries cutoff (cleanupOldEntries cutoff mem) = cleanupOldEntries cutoff mem) ∧
      (∀ (cutoff : String) (mem : Memory) (u : String) (ud : List (String × StoreMem))
          (s : String) (sd : StoreMem) (li : String),
        (u, ud) ∈ mem → (s, sd) ∈ ud → sd.last_interaction = some li →
        pyStrLt li cutoff = false →
        ∃ ud1, (u, ud1) ∈ cleanupOldEntries cutoff mem ∧ (s, sd) ∈ ud1) := by
  constructor
  · intro cutoff mem
    unfold cleanupOldEntries
    have hfix : ∀ ue ∈ ((mem.map (fun ue =>
        (ue.1, ue.2.filter (fun se => !(staleStore cutoff se.2))))).filter
          (fun ue => !ue.2.isEmpty)),
        (ue.1, ue.2.filter (fun se => !(staleStore cutoff se.2))) = ue := by
      intro ue hue
      have hmem := (List.mem_filter.mp hue).1
      obtain ⟨orig, _, horig⟩ := List.mem_map.mp hmem
      have hinner : ue.2.filter (fun se => !(staleStore cutoff se.2)) = ue.2 := by
        rw [List.filter_eq_self]
        intro a ha
        rw [← horig] at ha
        exact (List.mem_filter.mp ha).2
      rw [hinner]
    calc ((((mem.map (fun ue => (ue.1, ue.2.filter (fun se => !(staleStore cutoff se.2))))).filter
            (fun ue => !ue.2.isEmpty)).map (fun ue =>
              (ue.1, ue.2.filter (fun se => !(staleStore cutoff se.2))))).filter
            (fun ue => !ue.2.isEmpty))
        = (((mem.map (fun ue => (ue.1, ue.2.filter (fun se => !(staleStore cutoff se.2))))).filter
            (fun ue => !ue.2.isEmpty)).filter (fun ue => !ue.2.isEmpty)) := by
          rw [List.map_congr_left hfix, List.map_id']
      _ = ((mem.map (fun ue => (ue.1, ue.2.filter (fun se => !(staleStore cutoff se.2))))).filter
            (fun ue => !ue.2.isEmpty)) := by
          rw [List.filter_filter]
          simp
  · intro cutoff mem u ud s sd li hu hs hli hlt
    refine ⟨ud.filter (fun se => !(staleStore cutoff se.2)), ?_, ?_⟩
    · unfold cleanupOldEntries
      rw [List.mem_filter]
      constructor
      · exact List.mem_map.mpr ⟨(u, ud), hu, rfl⟩
      · have hsd : (s, sd) ∈ ud.filter (fun se => !(staleStore cutoff se.2)) := by
          rw [List.mem_filter]
          exact ⟨hs, by simp [staleStore, hli, hlt]⟩
        have hne : ud.filter (fun se => !(staleStore cutoff se.2)) ≠ [] := by
          intro hnil
          rw [hnil] at hsd
          exact absurd hsd (List.not_mem_nil _)
        simp only [Bool.not_eq_true']
        cases hcase : (ud.filter (fun se => !(staleStore cutoff se.2))).isEmpty with
        | false => rfl
        | true => exact absurd (List.isEmpty_iff.mp hcase) hne
    · rw [List.mem_filter]
      exact ⟨hs, by simp [staleStore, hli, hlt]⟩

/-- C9, witness: a cutoff of "2025-01-01" on one fresh entry — the sweep is a
fixed point and the fresh entry survives. -/
theorem cleanup_idempotent_witness :
    cleanupOldEntries "2025-01-01"
        (cleanupOldEntries "2025-01-01" [("7", [("g", ⟨[], some "2025-06-01"⟩)])]) =
      cleanupOldEntries "2025-01-01" [("7", [("g", ⟨[], some "2025-06-01"⟩)])] ∧
      ∃ ud1, ("7", ud1) ∈ cleanupOldEntries "2025-01-01" [("7", [("g", ⟨[], some "2025-06-01"⟩)])] ∧
        ("g", (⟨[], some "2025-06-01"⟩ : StoreMem)) ∈ ud1 :=
  ⟨cleanup_idempotent.1 "2025-01-01" [("7", [("g", ⟨[], some "2025-06-01"⟩)])],
    cleanup_idempotent.2 "2025-01-01" [("7", [("g", ⟨[], some "2025-06-01"⟩)])] "7"
      [("g", ⟨[], some "2025-06-01"⟩)] "g" ⟨[], some "2025-06-01"⟩ "2025-06-01"
      (by decide) (by decide) rfl (by decide)⟩

